import Mathlib

/-!
Verification of the identity-resolution core of the
`zoho_email_automation_and_data_anonymization` repository.

The Python sources are shallowly embedded as executable Lean definitions:

* `extract_business_info`      — `src/account_processing.py` (the identical copy
  in `src/business_id_mapping.py` / `src/clean_customer_names.py` is the same
  function line for line);
* `assignBusinessIds`          — the business-ID mapping built in
  `process_account_data` / `process_df_accounts`;
* `map_business_id_to_df3`     — the left-join propagation of `business_id`;
* `normalize_business_name`, `calculate_similarity_score`, `find_best_matches`
  — `src/email_customer_matching.py`.

Conventions of the embedding:

* Python `None`/`NaN` cell values become `Option` values (`none`).
* Python strings are Lean `String`s; character classes (`\d`, `[A-Za-z]`,
  `\w`, `\s`, `str.lower`, `str.upper`) are modelled on their ASCII fragment,
  which is the fragment the data of this pipeline exercises.
* Python floats are modelled as exact rationals (`ℚ`); the claims under
  check are order/threshold comparisons at the algorithm level.
* External library calls (`fuzzywuzzy.fuzz.ratio`,
  `difflib.SequenceMatcher.ratio`) are not repository code; they are modelled
  from their documented behaviour as recorded in the specification
  (normalized Levenshtein / longest-matching-block ratios scaled to 0–100).
-/

namespace Spec2Proof

/-! ### ASCII character classes used by the Python regexes -/

/-- ASCII fragment of Python's `\d`. -/
def isDigitChar (c : Char) : Bool := c.isDigit

/-- The regex class `[A-Za-z]`. -/
def isAsciiLetter (c : Char) : Bool := c.isAlpha

/-- ASCII fragment of Python's `\s` (space, tab, newline, carriage return,
vertical tab, form feed). -/
def isPySpace (c : Char) : Bool :=
  c = ' ' || c = '\t' || c = '\n' || c = '\r' || c = '\x0b' || c = '\x0c'

/-- ASCII fragment of Python's `\w`: alphanumeric or underscore. -/
def isWordChar (c : Char) : Bool := c.isAlphanum || c = '_'

/-! ### Account-identifier parser (`extract_business_info`) -/

/-- The suffix → account-type table of `extract_business_info`
(`account_type_map.get(suffix, 'Other')`). -/
def accountTypeMap (suffix : String) : String :=
  if suffix = "A" then "Accessory"
  else if suffix = "F" then "Frame"
  else if suffix = "K" then "Surface"
  else if suffix = "S" then "Brand Lens"
  else if suffix = "E" then "Edging"
  else if suffix = "" then "Lens"
  else "Other"

/-- `re.match(r'(\d+)([A-Za-z]*)$', s)`: a maximal run of digits, then a
maximal run of ASCII letters, and then `$`, which in Python matches at the
end of the string or just before a single final newline.  Returns the two
capture groups.  (Greedy matching is equivalent to full backtracking here:
shortening either run leaves a digit or letter at the `$` position.) -/
def pyMatchAccount (cs : List Char) : Option (List Char × List Char) :=
  let ds := cs.takeWhile isDigitChar
  if ds.isEmpty then none
  else
    let rest := cs.drop ds.length
    let ls := rest.takeWhile isAsciiLetter
    let tail := rest.drop ls.length
    if tail = [] ∨ tail = ['\n'] then some (ds, ls) else none

/-- `extract_business_info` from `src/account_processing.py`:
null → `(None, None, None)`; a match of `(\d+)([A-Za-z]*)$` →
`(digits, letters.upper(), account_type_map.get(suffix, 'Other'))`;
otherwise `(original, '', 'Unknown')`. -/
def extract_business_info (accountNo : Option String) :
    Option String × Option String × Option String :=
  match accountNo with
  | none => (none, none, none)
  | some s =>
    match pyMatchAccount s.toList with
    | some (ds, ls) =>
      let suffix : String := String.mk (ls.map Char.toUpper)
      (some (String.mk ds), some suffix, some (accountTypeMap suffix))
    | none => (some s, some "", some "Unknown")

/-- Claim-side pattern: the spec's `^\d+[A-Za-z]*$` with `$` meaning the very
end of the string (one or more digits followed by zero or more ASCII letters,
covering the whole input). -/
def matchesDigitsLetters (s : String) : Bool :=
  let cs := s.toList
  let ds := cs.takeWhile isDigitChar
  let ls := (cs.drop ds.length).takeWhile isAsciiLetter
  !ds.isEmpty && decide (cs = ds ++ ls)

/-- Claim-side pattern amended to Python `$` semantics: the same, but a single
trailing newline after the digits-letters body is also accepted. -/
def matchesDigitsLettersNl (s : String) : Bool :=
  let cs := s.toList
  let ds := cs.takeWhile isDigitChar
  let ls := (cs.drop ds.length).takeWhile isAsciiLetter
  !ds.isEmpty && (decide (cs = ds ++ ls) || decide (cs = ds ++ ls ++ ['\n']))

/-- Claim-side description of the parse of a valid account string: the digit
prefix, the uppercased trailing letters, and the 6-entry-table account type
defaulting to `"Other"`. -/
def specAccountParse (s : String) : Option String × Option String × Option String :=
  let cs := s.toList
  let ds := cs.takeWhile isDigitChar
  let ls := (cs.drop ds.length).takeWhile isAsciiLetter
  let suffix : String := String.mk (ls.map Char.toUpper)
  (some (String.mk ds), some suffix, some (accountTypeMap suffix))

/-- The account-type categories named by the spec. -/
def accountCategories : List String :=
  ["Accessory", "Frame", "Surface", "Brand Lens", "Edging", "Lens", "Other", "Unknown"]

lemma accountTypeMap_mem (suffix : String) : accountTypeMap suffix ∈ accountCategories := by
  unfold accountTypeMap accountCategories
  split
  · simp
  all_goals split
  all_goals simp_all
  all_goals split
  all_goals simp_all
  all_goals split
  all_goals simp_all
  all_goals split
  all_goals simp_all
  all_goals split
  all_goals simp_all

lemma takeWhile_append_dropWhile_toList (cs : List Char) (p : Char → Bool) :
    cs.takeWhile p ++ cs.drop (cs.takeWhile p).length = cs := by
  induction cs with
  | nil => rfl
  | cons c cs ih =>
    by_cases h : p c
    · simp [List.takeWhile_cons, h, ih]
    · simp [List.takeWhile_cons, h]

/-- The maximal digit run at the start of an account string. -/
def accDs (cs : List Char) : List Char := cs.takeWhile isDigitChar

/-- What follows the digit run. -/
def accRest (cs : List Char) : List Char := cs.drop (accDs cs).length

/-- The maximal letter run after the digits. -/
def accLs (cs : List Char) : List Char := (accRest cs).takeWhile isAsciiLetter

/-- What follows the letter run (`$` must match here). -/
def accTl (cs : List Char) : List Char := (accRest cs).drop (accLs cs).length

lemma pyMatchAccount_eq_def (cs : List Char) :
    pyMatchAccount cs =
      if (accDs cs).isEmpty then none
      else if accTl cs = [] ∨ accTl cs = ['\n'] then some (accDs cs, accLs cs)
      else none := rfl

lemma matchesDigitsLettersNl_eq_def (s : String) :
    matchesDigitsLettersNl s =
      (!(accDs s.toList).isEmpty &&
        (decide (s.toList = accDs s.toList ++ accLs s.toList) ||
          decide (s.toList = accDs s.toList ++ accLs s.toList ++ ['\n']))) := rfl

lemma matchesDigitsLetters_eq_def (s : String) :
    matchesDigitsLetters s =
      (!(accDs s.toList).isEmpty && decide (s.toList = accDs s.toList ++ accLs s.toList)) := rfl

lemma acc_decomp (cs : List Char) : cs = accDs cs ++ accLs cs ++ accTl cs := by
  have h1 : accDs cs ++ accRest cs = cs := takeWhile_append_dropWhile_toList cs isDigitChar
  have h2 : accLs cs ++ accTl cs = accRest cs :=
    takeWhile_append_dropWhile_toList (accRest cs) isAsciiLetter
  rw [List.append_assoc, h2, h1]

lemma extract_business_info_some (s : String) :
    extract_business_info (some s) =
      (match pyMatchAccount s.toList with
      | some (ds, ls) =>
        (some (String.mk ds), some (String.mk (ls.map Char.toUpper)),
          some (accountTypeMap (String.mk (ls.map Char.toUpper))))
      | none => (some s, some "", some "Unknown")) := rfl

/-- On a strictly valid account string, `pyMatchAccount` succeeds and returns
exactly the digit run and the letter run. -/
lemma pyMatchAccount_of_strict (s : String) (h : matchesDigitsLetters s = true) :
    pyMatchAccount s.toList = some (accDs s.toList, accLs s.toList) := by
  rw [matchesDigitsLetters_eq_def] at h
  simp only [Bool.and_eq_true, Bool.not_eq_true', decide_eq_true_eq] at h
  obtain ⟨hne, hsplit⟩ := h
  have htl : accTl s.toList = [] := by
    have h2 : accDs s.toList ++ accLs s.toList ++ accTl s.toList =
        accDs s.toList ++ accLs s.toList := (acc_decomp s.toList).symm.trans hsplit
    have h3 : accDs s.toList ++ (accLs s.toList ++ accTl s.toList) =
        accDs s.toList ++ (accLs s.toList ++ []) := by
      simpa [List.append_assoc] using h2
    exact List.append_cancel_left (List.append_cancel_left h3)
  have hcond : ¬((accDs s.toList).isEmpty = true) := by rw [hne]; simp
  rw [pyMatchAccount_eq_def, if_neg hcond, if_pos (Or.inl htl)]

/-- `pyMatchAccount` either succeeds on the canonical digit/letter runs (and the
input matches the newline-tolerant pattern) or fails (and it does not). -/
lemma pyMatchAccount_cases (s : String) :
    (pyMatchAccount s.toList = some (accDs s.toList, accLs s.toList) ∧
      matchesDigitsLettersNl s = true) ∨
    (pyMatchAccount s.toList = none ∧ matchesDigitsLettersNl s = false) := by
  rw [pyMatchAccount_eq_def, matchesDigitsLettersNl_eq_def]
  have hcs_eq := acc_decomp s.toList
  by_cases hemp : (accDs s.toList).isEmpty = true
  · right
    rw [if_pos hemp, hemp]
    exact ⟨rfl, rfl⟩
  · have hemp' : (accDs s.toList).isEmpty = false := by
      rwa [Bool.not_eq_true] at hemp
    rw [if_neg hemp, hemp']
    by_cases h1 : accTl s.toList = []
    · left
      refine ⟨if_pos (Or.inl h1), ?_⟩
      have hstep : accDs s.toList ++ accLs s.toList ++ accTl s.toList =
          accDs s.toList ++ accLs s.toList := by
        rw [h1, List.append_nil]
      have he : s.toList = accDs s.toList ++ accLs s.toList := hcs_eq.trans hstep
      rw [decide_eq_true he]
      rfl
    · by_cases h2 : accTl s.toList = ['\n']
      · left
        refine ⟨if_pos (Or.inr h2), ?_⟩
        have hstep : accDs s.toList ++ accLs s.toList ++ accTl s.toList =
            accDs s.toList ++ accLs s.toList ++ ['\n'] := by
          rw [h2]
        have he : s.toList = accDs s.toList ++ accLs s.toList ++ ['\n'] := hcs_eq.trans hstep
        rw [decide_eq_true he]
        simp
      · right
        refine ⟨if_neg (by tauto), ?_⟩
        have e1 : ¬(s.toList = accDs s.toList ++ accLs s.toList) := by
          intro h
          apply h1
          have h3 : accDs s.toList ++ accLs s.toList ++ accTl s.toList =
              accDs s.toList ++ accLs s.toList := hcs_eq.symm.trans h
          have h4 : accDs s.toList ++ (accLs s.toList ++ accTl s.toList) =
              accDs s.toList ++ (accLs s.toList ++ []) := by
            simpa [List.append_assoc] using h3
          exact List.append_cancel_left (List.append_cancel_left h4)
        have e2 : ¬(s.toList = accDs s.toList ++ accLs s.toList ++ ['\n']) := by
          intro h
          apply h2
          have h3 : accDs s.toList ++ accLs s.toList ++ accTl s.toList =
              accDs s.toList ++ accLs s.toList ++ ['\n'] := hcs_eq.symm.trans h
          have h4 : accDs s.toList ++ (accLs s.toList ++ accTl s.toList) =
              accDs s.toList ++ (accLs s.toList ++ ['\n']) := by
            simpa [List.append_assoc] using h3
          exact List.append_cancel_left (List.append_cancel_left h4)
        rw [decide_eq_false e1, decide_eq_false e2]
        rfl

/-- Uppercasing does not change an ASCII digit. -/
lemma toUpper_of_digit (c : Char) (h : c.isDigit = true) : c.toUpper = c := by
  simp only [Char.isDigit, Bool.and_eq_true, decide_eq_true_eq] at h
  have h3 : c.toNat ≤ 57 := h.2
  unfold Char.toUpper
  rw [if_neg]
  omega

/-- C3 (amended): the parser returns `(null, null, null)` on null; on a string
matching `^\d+[A-Za-z]*$` *up to Python's `$` semantics* (a single trailing
newline is also accepted) it returns the digit prefix, the uppercased trailing
letters, and the 6-entry-table account type with default `"Other"`; on any
other string it returns `(original, "", "Unknown")`. -/
theorem extract_business_info_spec (v : Option String) :
    (v = none → extract_business_info v = (none, none, none)) ∧
    (∀ s, v = some s →
      (matchesDigitsLettersNl s = true → extract_business_info v = specAccountParse s) ∧
      (matchesDigitsLettersNl s = false →
        extract_business_info v = (some s, some "", some "Unknown"))) := by
  constructor
  · intro h; rw [h]; rfl
  · intro s hv
    subst hv
    rcases pyMatchAccount_cases s with ⟨hm, hp⟩ | ⟨hm, hp⟩
    · constructor
      · intro _
        show extract_business_info (some s) = specAccountParse s
        rw [extract_business_info_some, hm]
        rfl
      · intro h; rw [hp] at h; exact absurd h (by simp)
    · constructor
      · intro h; rw [hp] at h; exact absurd h (by simp)
      · intro _
        show extract_business_info (some s) = (some s, some "", some "Unknown")
        rw [extract_business_info_some, hm]

/-- C3 witness: the amended theorem applied to the spec's own examples
`"1341A"` and `"1513"`. -/
theorem extract_business_info_spec_witness :
    extract_business_info (some "1341A") = (some "1341", some "A", some "Accessory") ∧
    extract_business_info (some "1513") = (some "1513", some "", some "Lens") := by
  constructor
  · have h := ((extract_business_info_spec (some "1341A")).2 "1341A" rfl).1 (by decide)
    rw [h]; decide
  · have h := ((extract_business_info_spec (some "1513")).2 "1513" rfl).1 (by decide)
    rw [h]; decide

/-- C3 counterexample: `"1341A\n"` matches neither the null case nor the
claim's `^\d+[A-Za-z]*$` pattern, yet the parser does not return
`(original, "", "Unknown")` — it parses the string as a valid account. -/
theorem extract_business_info_strict_cex :
    matchesDigitsLetters "1341A\n" = false ∧
    extract_business_info (some "1341A\n") ≠ (some "1341A\n", some "", some "Unknown") := by
  exact ⟨by decide, by decide⟩

/-- C6 (amended): for a valid account string (digits then optional letters),
concatenating the returned base number and suffix reproduces the original
string with its letters uppercased (the parser uppercases the suffix). -/
theorem base_suffix_roundtrip (s : String) (h : matchesDigitsLetters s = true) :
    ∃ b suf ty, extract_business_info (some s) = (some b, some suf, some ty) ∧
      b ++ suf = String.mk (s.toList.map Char.toUpper) := by
  have hm := pyMatchAccount_of_strict s h
  refine ⟨String.mk (accDs s.toList), String.mk ((accLs s.toList).map Char.toUpper),
    accountTypeMap (String.mk ((accLs s.toList).map Char.toUpper)), ?_, ?_⟩
  · rw [extract_business_info_some, hm]
  · have hsplit : s.toList = accDs s.toList ++ accLs s.toList := by
      rw [matchesDigitsLetters_eq_def] at h
      simp only [Bool.and_eq_true, Bool.not_eq_true', decide_eq_true_eq] at h
      exact h.2
    have hdsu : (accDs s.toList).map Char.toUpper = accDs s.toList := by
      have hdig : ∀ c ∈ accDs s.toList, Char.toUpper c = c := by
        intro c hc
        exact toUpper_of_digit c (List.mem_takeWhile_imp hc)
      calc (accDs s.toList).map Char.toUpper = (accDs s.toList).map id :=
            List.map_congr_left hdig
        _ = accDs s.toList := List.map_id _
    refine congrArg String.mk ?_
    calc accDs s.toList ++ (accLs s.toList).map Char.toUpper
        = (accDs s.toList).map Char.toUpper ++ (accLs s.toList).map Char.toUpper := by
          rw [hdsu]
      _ = (accDs s.toList ++ accLs s.toList).map Char.toUpper :=
          (List.map_append _ _ _).symm
      _ = s.toList.map Char.toUpper := (congrArg (List.map Char.toUpper) hsplit).symm

/-- C6 witness: the amended round-trip at the counterexample input `"1341a"`
(whose letters are lowercase), where the concatenation gives `"1341A"`. -/
theorem base_suffix_roundtrip_witness :
    matchesDigitsLetters "1341a" = true ∧
    ∃ b suf ty, extract_business_info (some "1341a") = (some b, some suf, some ty) ∧
      b ++ suf = String.mk ("1341a".toList.map Char.toUpper) :=
  ⟨by decide, base_suffix_roundtrip "1341a" (by decide)⟩

/-- C6 counterexample: `"1341a"` is a valid account string, but the parser
uppercases the suffix, so base ++ suffix gives `"1341A"`, not the original. -/
theorem base_suffix_roundtrip_cex :
    matchesDigitsLetters "1341a" = true ∧
    extract_business_info (some "1341a") = (some "1341", some "A", some "Accessory") ∧
    "1341" ++ "A" ≠ "1341a" := by
  refine ⟨by decide, by decide, by decide⟩

/-- C7 (amended): for every non-null input, the returned account type is one
of the eight fixed categories. -/
theorem account_type_in_categories (s : String) :
    (extract_business_info (some s)).2.2 ∈ accountCategories.map some := by
  rcases pyMatchAccount_cases s with ⟨hm, -⟩ | ⟨hm, -⟩
  · rw [extract_business_info_some, hm]
    simpa using List.mem_map_of_mem some
      (accountTypeMap_mem (String.mk ((accLs s.toList).map Char.toUpper)))
  · rw [extract_business_info_some, hm]
    simp [accountCategories]

/-- C7 counterexample: for the null input the parser returns a null account
type, which is not one of the eight categories. -/
theorem account_type_total_cex :
    extract_business_info none = (none, none, none) ∧
    (extract_business_info none).2.2 ∉ accountCategories.map some := by
  exact ⟨rfl, by decide⟩

/-- C10: `"1341A\n"` does not match the stated valid form `^\d+[A-Za-z]*$`
(as end-of-string anchoring), yet the parser treats it as valid, because
Python's `$` also matches just before a final newline: it is parsed as
`("1341", "A", "Accessory")`. -/
theorem trailing_newline_accepted :
    matchesDigitsLetters "1341A\n" = false ∧
    matchesDigitsLettersNl "1341A\n" = true ∧
    extract_business_info (some "1341A\n") = (some "1341", some "A", some "Accessory") := by
  refine ⟨by decide, by decide, by decide⟩

/-! ### Business-ID assigner
(`process_account_data` in `src/account_processing.py` and `process_df_accounts`
in `src/business_id_mapping.py`):
`unique_base_accounts = df['base_account'].dropna().unique()` and
`business_id_map = {base: f"BUS_{i+1:04d}" for i, base in enumerate(sorted(unique_base_accounts))}`. -/

/-- `pandas.unique` / `drop_duplicates`: distinct elements, first occurrence
kept, in order of first appearance. -/
def pdUnique {α : Type} [DecidableEq α] (l : List α) : List α :=
  (l.reverse.dedup).reverse

/-- Lexicographic comparison of character lists by code point — the order
Python's `sorted` uses on `str`. -/
def lexLeB : List Char → List Char → Bool
  | [], _ => true
  | _ :: _, [] => false
  | a :: as, b :: bs => if a = b then lexLeB as bs else decide (a < b)

/-- Python string comparison `a <= b` (code-point lexicographic order). -/
def StrLe (a b : String) : Prop := lexLeB a.toList b.toList = true

instance : DecidableRel StrLe :=
  fun a b => inferInstanceAs (Decidable (lexLeB a.toList b.toList = true))

lemma lexLeB_total : ∀ as bs : List Char, lexLeB as bs = true ∨ lexLeB bs as = true
  | [], _ => Or.inl rfl
  | _ :: _, [] => Or.inr rfl
  | a :: as, b :: bs => by
    by_cases hab : a = b
    · subst hab
      rcases lexLeB_total as bs with h | h
      · exact Or.inl (by simp [lexLeB, h])
      · exact Or.inr (by simp [lexLeB, h])
    · rcases lt_or_gt_of_ne hab with h | h
      · exact Or.inl (by simp [lexLeB, hab, h])
      · exact Or.inr (by simp [lexLeB, Ne.symm hab, h])

lemma lexLeB_trans : ∀ as bs cs : List Char,
    lexLeB as bs = true → lexLeB bs cs = true → lexLeB as cs = true
  | [], _, _, _, _ => rfl
  | _ :: _, [], _, h1, _ => by simp [lexLeB] at h1
  | _ :: _, _ :: _, [], _, h2 => by simp [lexLeB] at h2
  | a :: as, b :: bs, c :: cs, h1, h2 => by
    by_cases hab : a = b
    · subst hab
      by_cases hac : a = c
      · subst hac
        simp only [lexLeB, if_pos rfl] at h1 h2 ⊢
        exact lexLeB_trans as bs cs h1 h2
      · simp only [lexLeB, if_pos rfl] at h1
        simp only [lexLeB, if_neg hac] at h2 ⊢
        exact h2
    · simp only [lexLeB, if_neg hab] at h1
      have hab' : a < b := of_decide_eq_true h1
      by_cases hbc : b = c
      · subst hbc
        simp only [lexLeB, if_neg hab]
        exact decide_eq_true hab'
      · simp only [lexLeB, if_neg hbc] at h2
        have hbc' : b < c := of_decide_eq_true h2
        have hac' : a < c := lt_trans hab' hbc'
        simp only [lexLeB, if_neg (ne_of_lt hac')]
        exact decide_eq_true hac'

lemma lexLeB_antisymm : ∀ as bs : List Char,
    lexLeB as bs = true → lexLeB bs as = true → as = bs
  | [], [], _, _ => rfl
  | [], _ :: _, _, h2 => by simp [lexLeB] at h2
  | _ :: _, [], h1, _ => by simp [lexLeB] at h1
  | a :: as, b :: bs, h1, h2 => by
    by_cases hab : a = b
    · subst hab
      simp only [lexLeB, if_pos rfl] at h1 h2
      rw [lexLeB_antisymm as bs h1 h2]
    · simp only [lexLeB, if_neg hab, if_neg (Ne.symm hab)] at h1 h2
      exact absurd (lt_trans (of_decide_eq_true h1) (of_decide_eq_true h2))
        (lt_irrefl a)

instance : IsTotal String StrLe :=
  ⟨fun a b => lexLeB_total a.toList b.toList⟩

instance : IsTrans String StrLe :=
  ⟨fun a b c => lexLeB_trans a.toList b.toList c.toList⟩

instance : IsAntisymm String StrLe :=
  ⟨fun a b h1 h2 => by
    have := lexLeB_antisymm a.toList b.toList h1 h2
    exact String.ext this⟩

/-- Python `f"{n:04d}"` for a nonnegative `n`: the decimal digits, left-padded
with zeros to a minimum width of 4. -/
def pyFormat04 (n : ℕ) : String :=
  String.mk (List.replicate (4 - (Nat.repr n).length) '0' ++ (Nat.repr n).toList)

/-- The sorted deduplicated key list: `sorted(df['base_account'].dropna().unique())`. -/
def sortedBases (bases : List String) : List String :=
  List.insertionSort StrLe (pdUnique bases)

/-- The business-ID mapping of `process_account_data`/`process_df_accounts`,
as an association list: the non-null base numbers are deduplicated
(`unique`), sorted (`sorted`, lexicographic string order), and enumerated as
`BUS_{i+1:04d}`. -/
def assignBusinessIds (bases : List String) : List (String × String) :=
  (sortedBases bases).zip
    ((List.range (sortedBases bases).length).map (fun i => "BUS_" ++ pyFormat04 (i + 1)))

lemma pdUnique_nodup {α : Type} [DecidableEq α] (l : List α) : (pdUnique l).Nodup := by
  unfold pdUnique
  exact List.nodup_reverse.mpr (List.nodup_dedup _)

lemma mem_pdUnique {α : Type} [DecidableEq α] (a : α) (l : List α) :
    a ∈ pdUnique l ↔ a ∈ l := by
  unfold pdUnique
  rw [List.mem_reverse, List.mem_dedup, List.mem_reverse]

lemma sortedBases_sorted (l : List String) : (sortedBases l).Sorted StrLe :=
  List.sorted_insertionSort _ _

lemma sortedBases_nodup (l : List String) : (sortedBases l).Nodup :=
  (List.perm_insertionSort _ (pdUnique l)).nodup_iff.mpr (pdUnique_nodup l)

lemma mem_sortedBases (s : String) (l : List String) : s ∈ sortedBases l ↔ s ∈ l :=
  ((List.perm_insertionSort _ (pdUnique l)).mem_iff).trans (mem_pdUnique s l)

lemma sortedBases_ext (l₁ l₂ : List String) (h : ∀ s, s ∈ l₁ ↔ s ∈ l₂) :
    sortedBases l₁ = sortedBases l₂ := by
  have hmem : ∀ s, s ∈ sortedBases l₁ ↔ s ∈ sortedBases l₂ := by
    intro s
    rw [mem_sortedBases, mem_sortedBases]
    exact h s
  have hperm : List.Perm (sortedBases l₁) (sortedBases l₂) :=
    (List.perm_ext_iff_of_nodup (sortedBases_nodup l₁) (sortedBases_nodup l₂)).mpr hmem
  exact List.eq_of_perm_of_sorted hperm (sortedBases_sorted l₁) (sortedBases_sorted l₂)

lemma assignBusinessIds_keys (l : List String) :
    (assignBusinessIds l).map Prod.fst = sortedBases l := by
  unfold assignBusinessIds
  exact List.map_fst_zip _ _ (by simp)

lemma assignBusinessIds_ids (l : List String) :
    (assignBusinessIds l).map Prod.snd =
      (List.range (sortedBases l).length).map (fun i => "BUS_" ++ pyFormat04 (i + 1)) := by
  unfold assignBusinessIds
  exact List.map_snd_zip _ _ (by simp)

lemma assignBusinessIds_length (l : List String) :
    (assignBusinessIds l).length = (sortedBases l).length := by
  unfold assignBusinessIds
  rw [List.length_zip]
  simp

/-- C4: business-ID assignment is a deterministic (hence idempotent) function
of the set of non-null base numbers; its keys are the distinct base numbers
in ascending lexicographic order, each appearing exactly once; its IDs are the
sequence `BUS_{i+1:04d}`, starting at `BUS_0001`, where the padding gives
exactly four digits for any sequence number up to 9999. -/
theorem business_id_assignment_spec :
    (∀ l₁ l₂ : List String, (∀ s, s ∈ l₁ ↔ s ∈ l₂) →
      assignBusinessIds l₁ = assignBusinessIds l₂) ∧
    (∀ l : List String,
      ((assignBusinessIds l).map Prod.fst).Sorted StrLe ∧
      ((assignBusinessIds l).map Prod.fst).Nodup ∧
      (∀ s, s ∈ (assignBusinessIds l).map Prod.fst ↔ s ∈ l) ∧
      (assignBusinessIds l).map Prod.snd =
        (List.range (assignBusinessIds l).length).map (fun i => "BUS_" ++ pyFormat04 (i + 1)) ∧
      (l ≠ [] → ((assignBusinessIds l).map Prod.snd).head? = some "BUS_0001")) ∧
    (∀ n : ℕ, 1 ≤ n → n ≤ 9999 → (pyFormat04 n).length = 4) := by
  refine ⟨?_, ?_, ?_⟩
  · intro l₁ l₂ h
    unfold assignBusinessIds
    rw [sortedBases_ext l₁ l₂ h]
  · intro l
    refine ⟨?_, ?_, ?_, ?_, ?_⟩
    · rw [assignBusinessIds_keys]; exact sortedBases_sorted l
    · rw [assignBusinessIds_keys]; exact sortedBases_nodup l
    · intro s; rw [assignBusinessIds_keys]; exact mem_sortedBases s l
    · rw [assignBusinessIds_ids, assignBusinessIds_length]
    · intro hne
      obtain ⟨a, ha⟩ := List.exists_mem_of_ne_nil l hne
      have hmem : a ∈ sortedBases l := (mem_sortedBases a l).mpr ha
      have hlen : 0 < (sortedBases l).length := List.length_pos.mpr
        (List.ne_nil_of_mem hmem)
      obtain ⟨m, hm⟩ := Nat.exists_eq_add_of_lt hlen
      rw [assignBusinessIds_ids]
      have hlen1 : (sortedBases l).length = m + 1 := by omega
      rw [hlen1, List.range_succ_eq_map]
      simp only [List.map_cons, List.head?_cons]
      rfl
  · intro n h1 h9999
    have hle : (Nat.repr n).length ≤ 4 :=
      Nat.repr_length n 4 (by norm_num) (by omega)
    have h0 : (pyFormat04 n).length =
        (4 - (Nat.repr n).length) + (Nat.repr n).length := by
      show (List.replicate (4 - (Nat.repr n).length) '0' ++ (Nat.repr n).toList).length = _
      rw [List.length_append, List.length_replicate]
      rfl
    rw [h0]
    omega

/-- C4 witness: the assigner applied to two different lists with the same
underlying set, and the concrete resulting mapping. -/
theorem business_id_assignment_spec_witness :
    assignBusinessIds ["200", "1341", "200"] = assignBusinessIds ["1341", "200"] ∧
    assignBusinessIds ["1341", "200"] = [("1341", "BUS_0001"), ("200", "BUS_0002")] ∧
    pyFormat04 1 = "0001" := by
  refine ⟨business_id_assignment_spec.1 ["200", "1341", "200"] ["1341", "200"] ?_, ?_, ?_⟩
  · intro s
    simp only [List.mem_cons, List.not_mem_nil, or_false]
    tauto
  · decide
  · decide

/-! ### Customer-name cleaning and business-ID propagation
(`clean_customer_name` / `extract_customer_name` and `map_business_id_to_df3`
in `src/business_id_mapping.py` and `src/clean_customer_names.py`). -/

/-- Does `\s*#\d+[A-Za-z]*$` match starting exactly at this position?  If so,
return the unmatched remainder (`[]`, or `['\n']` when `$` matched just before
a final newline).  Greedy runs are equivalent to full backtracking here, as
for `pyMatchAccount`. -/
def tagMatchInfo (cs : List Char) : Option (List Char) :=
  match cs.dropWhile isPySpace with
  | c :: r2 =>
    if c = '#' then
      let ds := r2.takeWhile isDigitChar
      if ds.isEmpty then none
      else
        let r3 := r2.drop ds.length
        let ls := r3.takeWhile isAsciiLetter
        let t := r3.drop ls.length
        if t = [] ∨ t = ['\n'] then some t else none
    else none
  | [] => none

/-- `re.sub(r'\s*#\d+[A-Za-z]*$', '', s)`: scan left to right; at the first
position where the (end-anchored) tag pattern matches, drop the matched span
and keep the remainder. -/
def removeTagScan : List Char → List Char
  | [] => []
  | c :: cs =>
    match tagMatchInfo (c :: cs) with
    | some t => t
    | none => c :: removeTagScan cs

/-- Python `str.strip()` (ASCII whitespace fragment). -/
def pyStrip (cs : List Char) : List Char :=
  ((cs.dropWhile isPySpace).reverse.dropWhile isPySpace).reverse

/-- `extract_customer_name` in `map_business_id_to_df3` (identical to
`clean_customer_name` in `src/clean_customer_names.py`): null stays null,
otherwise the trailing `#<account>` tag is removed and the result stripped. -/
def extract_customer_name (name : Option String) : Option String :=
  match name with
  | none => none
  | some s => some (String.mk (pyStrip (removeTagScan s.toList)))

/-- A row of the sales dataset: its `Name` cell plus an identifier standing
for all the other columns (which the join carries along unchanged). -/
structure SalesRow where
  rowId : ℕ
  name : Option String
deriving DecidableEq, Repr

/-- A row of the merged output of `map_business_id_to_df3`: the sales row,
its `customer_name_clean` key, and the joined `Customer` / `business_id`
cells (null when the left join found no match). -/
structure MappedSalesRow where
  sales : SalesRow
  customerNameClean : Option String
  customer : Option String
  businessId : Option String
deriving DecidableEq, Repr

/-- `map_business_id_to_df3`: build
`customer_business_map = customer_df[['Customer','business_id']].drop_duplicates()`,
clean the sales `Name` column, and left-merge
(`sales_df.merge(customer_business_map, left_on='customer_name_clean',
right_on='Customer', how='left')`).  A left row with no key match is kept
once with null `Customer`/`business_id`; a left row with matches is repeated
once per matching right row, in right-table order (pandas semantics; pandas
also matches null keys to null keys, hence plain `Option` equality). -/
def map_business_id_to_df3 (customerMap : List (Option String × Option String))
    (salesDf : List SalesRow) : List MappedSalesRow :=
  let cmap := pdUnique customerMap
  salesDf.flatMap (fun srow =>
    let key := extract_customer_name srow.name
    let ms := cmap.filter (fun m => decide (m.1 = key))
    if ms.isEmpty then [⟨srow, key, none, none⟩]
    else ms.map (fun m => ⟨srow, key, m.1, m.2⟩))

lemma length_le_length_flatMap {α β : Type} (f : α → List β) (l : List α)
    (h : ∀ x, 1 ≤ (f x).length) : l.length ≤ (l.flatMap f).length := by
  induction l with
  | nil => simp
  | cons x xs ih =>
    rw [List.flatMap_cons, List.length_append, List.length_cons]
    have := h x
    omega

/-- C5: the left join of `map_business_id_to_df3` never reduces the row count
of the receiving (sales) dataset, and every sales row whose cleaned name has
no match in the deduplicated customer mapping is retained in the output with
a null `business_id` (and null `Customer`). -/
theorem left_join_preserves_rows (customerMap : List (Option String × Option String))
    (salesDf : List SalesRow) :
    salesDf.length ≤ (map_business_id_to_df3 customerMap salesDf).length ∧
    (∀ srow ∈ salesDf,
      (∀ m ∈ pdUnique customerMap, m.1 ≠ extract_customer_name srow.name) →
      (⟨srow, extract_customer_name srow.name, none, none⟩ : MappedSalesRow) ∈
        map_business_id_to_df3 customerMap salesDf) := by
  constructor
  · apply length_le_length_flatMap
    intro srow
    by_cases hemp : ((pdUnique customerMap).filter
        (fun m => decide (m.1 = extract_customer_name srow.name))).isEmpty
    · simp only [hemp, if_pos]
      simp
    · simp only [hemp, Bool.false_eq_true, if_false, List.length_map]
      have : ((pdUnique customerMap).filter
          (fun m => decide (m.1 = extract_customer_name srow.name))) ≠ [] := by
        intro hnil
        rw [hnil] at hemp
        exact hemp rfl
      have := List.length_pos.mpr this
      omega
  · intro srow hs hnomatch
    unfold map_business_id_to_df3
    rw [List.mem_flatMap]
    refine ⟨srow, hs, ?_⟩
    have hfil : ((pdUnique customerMap).filter
        (fun m => decide (m.1 = extract_customer_name srow.name))) = [] := by
      rw [List.filter_eq_nil_iff]
      intro m hm
      simp only [decide_eq_true_eq]
      exact hnomatch m hm
    dsimp only
    rw [hfil]
    simp

/-- C5 witness: a concrete sales row whose cleaned name (`"ZETA #12"` →
`"ZETA"`) has no match in the mapping is kept with null `business_id`. -/
theorem left_join_preserves_rows_witness :
    extract_customer_name (some "ZETA #12") = some "ZETA" ∧
    (⟨⟨0, some "ZETA #12"⟩, some "ZETA", none, none⟩ : MappedSalesRow) ∈
      map_business_id_to_df3 [(some "ACME", some "BUS_0001")] [⟨0, some "ZETA #12"⟩] := by
  constructor
  · decide
  · have h := (left_join_preserves_rows [(some "ACME", some "BUS_0001")]
      [⟨0, some "ZETA #12"⟩]).2 ⟨0, some "ZETA #12"⟩ (by decide) (by decide)
    have he : extract_customer_name (some "ZETA #12") = some "ZETA" := by decide
    rw [he] at h
    exact h

/-! ### Name normalizer (`normalize_business_name` in
`src/email_customer_matching.py`). -/

/-- `\b` holds before the pattern: the previous character (if any) is not a
word character. -/
def prevBoundaryOk (prev : Option Char) : Bool :=
  match prev with
  | none => true
  | some c => !isWordChar c

/-- `\b` holds after the pattern: the next character (if any) is not a word
character. -/
def nextBoundaryOk (rest : List Char) : Bool :=
  match rest.head? with
  | none => true
  | some c => !isWordChar c

/-- One pass of `re.sub(r'\b' + old + r'\b', new, s)` for a word `old`:
scan left to right, replace each non-overlapping word-bounded occurrence of
`old` with `new`, resuming after the consumed occurrence.  `prev` is the
character just before the current position in the input (for the left
boundary); `fuel` starts at the input length and the input shrinks by at
least one character per step. -/
def subWordAux (old new : List Char) : Option Char → ℕ → List Char → List Char
  | _, _, [] => []
  | _, 0, cs => cs
  | prev, fuel + 1, c :: cs =>
    if prevBoundaryOk prev && old.isPrefixOf (c :: cs) &&
        nextBoundaryOk ((c :: cs).drop old.length) then
      new ++ subWordAux old new (some (old.getLastD c)) fuel ((c :: cs).drop old.length)
    else
      c :: subWordAux old new (some c) fuel cs

/-- Word-boundary-safe substitution of one dictionary entry. -/
def pySubWordBounded (old new : String) (cs : List Char) : List Char :=
  subWordAux old.toList new.toList none cs.length cs

/-- The replacement dictionary of `normalize_business_name`, in insertion
(application) order. -/
def replacements : List (String × String) :=
  [("optical", "opt"), ("optometry", "opt"), ("eyecare", "eye"), ("eyewear", "eye"),
   ("vision", "vis"), ("lens", "len"), ("clinic", "cl"), ("center", "ctr"),
   ("associates", "assoc"), ("professional", "prof"), ("family", "fam"),
   ("group", "grp"), ("company", "co"), ("corporation", "corp"),
   ("incorporated", "inc"), ("limited", "ltd"),
   ("eleven", "11"), ("twenty", "20"), ("thirty", "30"), ("forty", "40"),
   ("fifty", "50"), ("sixty", "60"), ("seventy", "70"), ("eighty", "80"),
   ("ninety", "90"), ("one", "1"), ("two", "2"), ("three", "3"), ("four", "4"),
   ("five", "5"), ("six", "6"), ("seven", "7"), ("eight", "8"), ("nine", "9"),
   ("zero", "0")]

/-- The `for old, new in replacements.items(): name = re.sub(...)` loop. -/
def applyReplacements (cs : List Char) : List Char :=
  replacements.foldl (fun acc p => pySubWordBounded p.1 p.2 acc) cs

/-- `re.sub(r'\s+', ' ', s)`: collapse every whitespace run to one space.
The flag records whether the previous input character was whitespace. -/
def collapseWsAux : Bool → List Char → List Char
  | _, [] => []
  | prevSpace, c :: cs =>
    if isPySpace c then
      if prevSpace then collapseWsAux true cs
      else ' ' :: collapseWsAux true cs
    else c :: collapseWsAux false cs

/-- `normalize_business_name`: null → `''`; otherwise lowercase, apply the
word-boundary replacement dictionary, drop `[^\w\s]` characters, collapse
whitespace runs to single spaces, and strip. -/
def normalize_business_name (name : Option String) : String :=
  match name with
  | none => ""
  | some s =>
    let lowered := s.toList.map Char.toLower
    let replaced := applyReplacements lowered
    let kept := replaced.filter (fun c => isWordChar c || isPySpace c)
    let collapsed := collapseWsAux false kept
    String.mk (pyStrip collapsed)

lemma mem_collapseWsAux : ∀ (b : Bool) (cs : List Char) (c : Char),
    c ∈ collapseWsAux b cs → c = ' ' ∨ (c ∈ cs ∧ isPySpace c = false)
  | _, [], c, h => by simp [collapseWsAux] at h
  | b, x :: cs, c, h => by
    by_cases hx : isPySpace x = true
    · by_cases hb : b = true
      · subst hb
        rw [collapseWsAux, if_pos hx, if_pos rfl] at h
        rcases mem_collapseWsAux true cs c h with h' | ⟨h1, h2⟩
        · exact Or.inl h'
        · exact Or.inr ⟨List.mem_cons_of_mem x h1, h2⟩
      · have hb' : b = false := by revert hb; cases b <;> simp
        subst hb'
        rw [collapseWsAux, if_pos hx, if_neg (by simp)] at h
        rcases List.mem_cons.mp h with h' | h'
        · exact Or.inl h'
        · rcases mem_collapseWsAux true cs c h' with h'' | ⟨h1, h2⟩
          · exact Or.inl h''
          · exact Or.inr ⟨List.mem_cons_of_mem x h1, h2⟩
    · rw [collapseWsAux, if_neg hx] at h
      rcases List.mem_cons.mp h with h' | h'
      · subst h'
        exact Or.inr ⟨List.mem_cons_self c cs, by revert hx; cases isPySpace c <;> simp⟩
      · rcases mem_collapseWsAux false cs c h' with h'' | ⟨h1, h2⟩
        · exact Or.inl h''
        · exact Or.inr ⟨List.mem_cons_of_mem x h1, h2⟩

lemma space_isPySpace : isPySpace ' ' = true := rfl

lemma ne_space_of_not_pySpace {c : Char} (h : isPySpace c = false) : c ≠ ' ' := by
  intro he
  subst he
  exact absurd space_isPySpace (by rw [h]; simp)

lemma chain_collapseWsAux (cs : List Char) :
    (collapseWsAux false cs).Chain' (fun a b => ¬(a = ' ' ∧ b = ' ')) ∧
    (collapseWsAux true cs).Chain' (fun a b => ¬(a = ' ' ∧ b = ' ')) ∧
    (collapseWsAux true cs).head? ≠ some ' ' := by
  induction cs with
  | nil => exact ⟨List.chain'_nil, List.chain'_nil, by simp [collapseWsAux]⟩
  | cons x cs ih =>
    obtain ⟨ihF, ihT, ihH⟩ := ih
    by_cases hx : isPySpace x = true
    · have hF : collapseWsAux false (x :: cs) = ' ' :: collapseWsAux true cs := by
        rw [collapseWsAux, if_pos hx, if_neg (by simp)]
      have hT : collapseWsAux true (x :: cs) = collapseWsAux true cs := by
        rw [collapseWsAux, if_pos hx, if_pos rfl]
      refine ⟨?_, by rw [hT]; exact ihT, by rw [hT]; exact ihH⟩
      rw [hF]
      rw [List.chain'_cons']
      refine ⟨?_, ihT⟩
      intro y hy
      intro ⟨_, hy'⟩
      subst hy'
      exact ihH hy
    · have hx' : isPySpace x = false := by revert hx; cases isPySpace x <;> simp
      have hxs : x ≠ ' ' := ne_space_of_not_pySpace hx'
      have hF : collapseWsAux false (x :: cs) = x :: collapseWsAux false cs := by
        rw [collapseWsAux, if_neg (by simp [hx'])]
      have hT : collapseWsAux true (x :: cs) = x :: collapseWsAux false cs := by
        rw [collapseWsAux, if_neg (by simp [hx'])]
      have hchain : (x :: collapseWsAux false cs).Chain'
          (fun a b => ¬(a = ' ' ∧ b = ' ')) := by
        rw [List.chain'_cons']
        refine ⟨?_, ihF⟩
        intro y _
        intro ⟨hx2, _⟩
        exact hxs hx2
      refine ⟨by rw [hF]; exact hchain, by rw [hT]; exact hchain, ?_⟩
      rw [hT]
      simp only [List.head?_cons]
      intro h
      exact hxs (by injection h)

lemma head?_dropWhile_not (p : Char → Bool) :
    ∀ (l : List Char) (c : Char), (l.dropWhile p).head? = some c → p c = false
  | [], c, h => by simp at h
  | x :: xs, c, h => by
    by_cases hx : p x = true
    · rw [List.dropWhile_cons, if_pos hx] at h
      exact head?_dropWhile_not p xs c h
    · rw [List.dropWhile_cons, if_neg hx] at h
      have hxc : x = c := by simpa using h
      subst hxc
      revert hx
      cases p x <;> simp

lemma mem_pyStrip {c : Char} {l : List Char} (h : c ∈ pyStrip l) : c ∈ l := by
  unfold pyStrip at h
  rw [List.mem_reverse] at h
  have h2 := (List.dropWhile_suffix isPySpace).sublist.subset h
  rw [List.mem_reverse] at h2
  exact (List.dropWhile_suffix isPySpace).sublist.subset h2

lemma chain_reverse_noSS {m : List Char} (hm : m.Chain' (fun a b => ¬(a = ' ' ∧ b = ' '))) :
    m.reverse.Chain' (fun a b => ¬(a = ' ' ∧ b = ' ')) := by
  rw [List.chain'_reverse]
  exact List.Chain'.imp (fun a b hab hc => hab ⟨hc.2, hc.1⟩) hm

lemma chain_pyStrip {l : List Char} (h : l.Chain' (fun a b => ¬(a = ' ' ∧ b = ' '))) :
    (pyStrip l).Chain' (fun a b => ¬(a = ' ' ∧ b = ' ')) := by
  unfold pyStrip
  exact chain_reverse_noSS
    (((chain_reverse_noSS (h.suffix (List.dropWhile_suffix isPySpace))).suffix
      (List.dropWhile_suffix isPySpace)))

lemma head?_pyStrip_ne_space (l : List Char) : (pyStrip l).head? ≠ some ' ' := by
  unfold pyStrip
  rw [List.head?_reverse]
  cases hd : (((l.dropWhile isPySpace).reverse).dropWhile isPySpace).getLast? with
  | none => simp
  | some c =>
    intro h
    simp only [Option.some.injEq] at h
    subst h
    have hne : ((l.dropWhile isPySpace).reverse).dropWhile isPySpace ≠ [] := by
      intro hnil
      rw [hnil] at hd
      simp at hd
    obtain ⟨t, ht⟩ := @List.dropWhile_suffix Char ((l.dropWhile isPySpace).reverse) isPySpace
    have hlast : ((l.dropWhile isPySpace).reverse).getLast? = some ' ' := by
      rw [← ht, List.getLast?_append_of_ne_nil t hne, hd]
    rw [List.getLast?_reverse] at hlast
    have := head?_dropWhile_not isPySpace l ' ' hlast
    exact absurd space_isPySpace (by rw [this]; simp)

lemma getLast?_pyStrip_ne_space (l : List Char) : (pyStrip l).getLast? ≠ some ' ' := by
  unfold pyStrip
  rw [List.getLast?_reverse]
  intro h
  have := head?_dropWhile_not isPySpace ((l.dropWhile isPySpace).reverse) ' ' h
  exact absurd space_isPySpace (by rw [this]; simp)

lemma normalize_core (xs : List Char) :
    (∀ c ∈ pyStrip (collapseWsAux false
        (xs.filter (fun c => isWordChar c || isPySpace c))),
      isWordChar c = true ∨ c = ' ') ∧
    (pyStrip (collapseWsAux false
        (xs.filter (fun c => isWordChar c || isPySpace c)))).Chain'
      (fun a b => ¬(a = ' ' ∧ b = ' ')) ∧
    (pyStrip (collapseWsAux false
        (xs.filter (fun c => isWordChar c || isPySpace c)))).head? ≠ some ' ' ∧
    (pyStrip (collapseWsAux false
        (xs.filter (fun c => isWordChar c || isPySpace c)))).getLast? ≠ some ' ' := by
  refine ⟨?_, ?_, head?_pyStrip_ne_space _, getLast?_pyStrip_ne_space _⟩
  · intro c hc
    have hc2 := mem_pyStrip hc
    rcases mem_collapseWsAux false _ c hc2 with h | ⟨h1, h2⟩
    · exact Or.inr h
    · have := (List.mem_filter.mp h1).2
      rcases Bool.or_eq_true_iff.mp this with hw | hs
      · exact Or.inl hw
      · rw [hs] at h2
        exact absurd h2 (by simp)
  · exact chain_pyStrip (chain_collapseWsAux _).1

lemma toList_mk (l : List Char) : (String.mk l).toList = l := rfl

set_option maxHeartbeats 2000000 in
/-- C8 (amended): the normalizer returns `""` (never null) on null input, and
for every non-null input the result contains only *word* characters
(alphanumeric or underscore — `[^\w\s]` keeps the underscore, which is not
alphanumeric) and spaces, with no two consecutive spaces and no leading or
trailing whitespace. -/
theorem normalize_business_name_shape :
    normalize_business_name none = "" ∧
    (∀ s : String,
      (∀ c ∈ (normalize_business_name (some s)).toList, isWordChar c = true ∨ c = ' ') ∧
      (normalize_business_name (some s)).toList.Chain' (fun a b => ¬(a = ' ' ∧ b = ' ')) ∧
      (normalize_business_name (some s)).toList.head? ≠ some ' ' ∧
      (normalize_business_name (some s)).toList.getLast? ≠ some ' ') := by
  refine ⟨rfl, fun s => ?_⟩
  simp only [normalize_business_name, toList_mk]
  exact normalize_core _

set_option maxHeartbeats 2000000 in
/-- C8 witness: the shape theorem applied at the concrete input `"Ab c"`,
whose normalization is `"ab c"`. -/
theorem normalize_business_name_shape_witness :
    normalize_business_name (some "Ab c") = "ab c" ∧
    (isWordChar 'a' = true ∨ 'a' = ' ') := by
  refine ⟨by decide, (normalize_business_name_shape.2 "Ab c").1 'a' ?_⟩
  have h : normalize_business_name (some "Ab c") = "ab c" := by decide
  rw [h]
  decide

set_option maxHeartbeats 2000000 in
/-- C8 counterexample: `normalize_business_name` keeps the underscore (it is a
`\w` character), so the output is not limited to alphanumerics and spaces:
`"a_b"` normalizes to itself and contains `'_'`, which is neither alphanumeric
nor a space. -/
theorem normalize_underscore_cex :
    normalize_business_name (some "a_b") = "a_b" ∧
    '_' ∈ (normalize_business_name (some "a_b")).toList ∧
    Char.isAlphanum '_' = false ∧ '_' ≠ ' ' := by
  refine ⟨by decide, by decide, by decide, by decide⟩

/-! ### Similarity scorer (`calculate_similarity_score` in
`src/email_customer_matching.py`).

The two external ratio primitives are modelled from the spec's description of
the libraries (they are not repository code):

* `fuzzRatio` — `fuzzywuzzy.fuzz.ratio`: a normalized character-edit-distance
  (Levenshtein with substitution cost 2, i.e. indel) ratio, equal to
  `2·LCS(a,b)/(|a|+|b|)`, scaled to 0–100 and rounded to an integer with
  Python's `round` (half to even);
* `seqRatioScaled` — `difflib.SequenceMatcher(None, a, b).ratio()` scaled by
  100: twice the total size of the recursively-chosen longest matching blocks
  over the total length.  (difflib's autojunk heuristic only activates on
  inputs of length ≥ 200 and is not modelled.)
-/

/-- Longest-common-subsequence length, with explicit fuel (the fuel is at
least `|a| + |b|`, which the recursion never exhausts). -/
def lcsAux : ℕ → List Char → List Char → ℕ
  | 0, _, _ => 0
  | _ + 1, [], _ => 0
  | _ + 1, _ :: _, [] => 0
  | fuel + 1, a :: as, b :: bs =>
    if a = b then lcsAux fuel as bs + 1
    else max (lcsAux fuel (a :: as) bs) (lcsAux fuel as (b :: bs))

/-- Longest-common-subsequence length of two character lists. -/
def lcsLen (a b : List Char) : ℕ := lcsAux (a.length + b.length) a b

/-- Python 3 `round` on a rational, to an integer: nearest, ties to even. -/
def pythonRound (q : ℚ) : ℤ :=
  if q - ⌊q⌋ < 1 / 2 then ⌊q⌋
  else if 1 / 2 < q - ⌊q⌋ then ⌊q⌋ + 1
  else if ⌊q⌋ % 2 = 0 then ⌊q⌋ else ⌊q⌋ + 1

/-- `fuzz.ratio`: the normalized indel-Levenshtein ratio `2·LCS/(|a|+|b|)`
scaled to 0–100 and rounded (`utils.intr`); 100 on two empty strings. -/
def fuzzRatio (a b : List Char) : ℤ :=
  if a.length + b.length = 0 then 100
  else pythonRound ((200 * (lcsLen a b : ℚ)) / ((a.length : ℚ) + (b.length : ℚ)))

/-- Length of the common prefix of two character lists. -/
def commonPrefixLen : List Char → List Char → ℕ
  | a :: as, b :: bs => if a = b then commonPrefixLen as bs + 1 else 0
  | _, _ => 0

/-- difflib `find_longest_match` over the whole ranges: the longest common
substring, earliest in `a` then earliest in `b` on ties, as
`(start in a, start in b, length)`. -/
def longestMatch (a b : List Char) : ℕ × ℕ × ℕ :=
  (List.range a.length).foldl (fun best i =>
    (List.range b.length).foldl (fun best j =>
      let k := commonPrefixLen (a.drop i) (b.drop j)
      if best.2.2 < k then (i, j, k) else best) best) (0, 0, 0)

/-- difflib `get_matching_blocks` total size: recursively split around the
longest match.  Fuel-based; each recursive call strictly shrinks the `a`
side, so fuel `|a| + 1` suffices. -/
def matchingTotalAux : ℕ → List Char → List Char → ℕ
  | 0, _, _ => 0
  | fuel + 1, a, b =>
    let m := longestMatch a b
    if m.2.2 = 0 then 0
    else
      matchingTotalAux fuel (a.take m.1) (b.take m.2.1) + m.2.2 +
        matchingTotalAux fuel (a.drop (m.1 + m.2.2)) (b.drop (m.2.1 + m.2.2))

/-- Total size of difflib's matching blocks. -/
def matchingTotal (a b : List Char) : ℕ := matchingTotalAux (a.length + 1) a b

/-- `SequenceMatcher(None, a, b).ratio() * 100`; the ratio of two empty
strings is 1.0. -/
def seqRatioScaled (a b : List Char) : ℚ :=
  if a.length + b.length = 0 then 100
  else (200 * (matchingTotal a b : ℚ)) / ((a.length : ℚ) + (b.length : ℚ))

/-- Python `str.lower()` (ASCII fragment). -/
def pyLower (s : String) : String := String.mk (s.toList.map Char.toLower)

/-- `calculate_similarity_score`: 0 when either name is null or empty;
otherwise lowercase both and dispatch on `method` (`'fuzzy'`, `'sequence'`,
`'combined'`), returning 0 for any other method. -/
def calculate_similarity_score (name1 name2 : Option String) (method : String) : ℚ :=
  match name1, name2 with
  | some s1, some s2 =>
    if s1 = "" ∨ s2 = "" then 0
    else
      let n1 := (pyLower s1).toList
      let n2 := (pyLower s2).toList
      if method = "fuzzy" then ((fuzzRatio n1 n2 : ℤ) : ℚ)
      else if method = "sequence" then seqRatioScaled n1 n2
      else if method = "combined" then
        (((fuzzRatio n1 n2 : ℤ) : ℚ) + seqRatioScaled n1 n2) / 2
      else 0
  | _, _ => 0

lemma lcsAux_le : ∀ (fuel : ℕ) (a b : List Char),
    lcsAux fuel a b ≤ a.length ∧ lcsAux fuel a b ≤ b.length := by
  intro fuel
  induction fuel with
  | zero => intro a b; simp [lcsAux]
  | succ n ih =>
    intro a b
    match a, b with
    | [], _ => simp [lcsAux]
    | _ :: _, [] => simp [lcsAux]
    | a :: as, b :: bs =>
      by_cases hab : a = b
      · have := ih as bs
        simp only [lcsAux, if_pos hab, List.length_cons]
        omega
      · have h1 := ih (a :: as) bs
        have h2 := ih as (b :: bs)
        simp only [lcsAux, if_neg hab, List.length_cons] at *
        omega

lemma lcsLen_le (a b : List Char) : lcsLen a b ≤ a.length ∧ lcsLen a b ≤ b.length :=
  lcsAux_le _ a b

lemma pythonRound_bounds (q : ℚ) : (⌊q⌋ : ℤ) ≤ pythonRound q ∧ pythonRound q ≤ ⌊q⌋ + 1 := by
  unfold pythonRound
  split
  · omega
  · split
    · omega
    · split <;> omega

lemma pythonRound_nonneg {q : ℚ} (h : 0 ≤ q) : 0 ≤ pythonRound q := by
  have hf : (0 : ℤ) ≤ ⌊q⌋ := by
    rw [Int.le_floor]
    exact_mod_cast h
  have := (pythonRound_bounds q).1
  omega

lemma pythonRound_le_100 {q : ℚ} (h : q ≤ 100) : pythonRound q ≤ 100 := by
  have hfloor : ⌊q⌋ ≤ 100 := by
    have := Int.floor_le_floor h
    simpa using this
  unfold pythonRound
  split
  · omega
  · rename_i h1
    push_neg at h1
    have hfq : (⌊q⌋ : ℚ) + 1 / 2 ≤ q := by linarith
    have h99 : ⌊q⌋ ≤ 99 := by
      by_contra hcon
      push_neg at hcon
      have h100 : (100 : ℤ) ≤ ⌊q⌋ := hcon
      have : (100 : ℚ) ≤ (⌊q⌋ : ℚ) := by exact_mod_cast h100
      linarith
    split
    · omega
    · split <;> omega

lemma fuzzRatio_bounds (a b : List Char) : 0 ≤ fuzzRatio a b ∧ fuzzRatio a b ≤ 100 := by
  unfold fuzzRatio
  split
  · omega
  · rename_i hne
    have hpos : 0 < a.length + b.length := Nat.pos_of_ne_zero hne
    have hposq : (0 : ℚ) < (a.length : ℚ) + (b.length : ℚ) := by
      have : (0 : ℚ) < ((a.length + b.length : ℕ) : ℚ) := by exact_mod_cast hpos
      push_cast at this
      linarith
    have hlcs := lcsLen_le a b
    have hq0 : 0 ≤ (200 * (lcsLen a b : ℚ)) / ((a.length : ℚ) + (b.length : ℚ)) := by
      apply div_nonneg
      · positivity
      · linarith
    have hq100 : (200 * (lcsLen a b : ℚ)) / ((a.length : ℚ) + (b.length : ℚ)) ≤ 100 := by
      rw [div_le_iff hposq]
      have h1 : (lcsLen a b : ℚ) ≤ (a.length : ℚ) := by exact_mod_cast hlcs.1
      have h2 : (lcsLen a b : ℚ) ≤ (b.length : ℚ) := by exact_mod_cast hlcs.2
      linarith
    exact ⟨pythonRound_nonneg hq0, pythonRound_le_100 hq100⟩

lemma foldl_preserves {α β : Type} (P : β → Prop) (f : β → α → β) :
    ∀ (l : List α) (init : β), P init → (∀ acc x, x ∈ l → P acc → P (f acc x)) →
      P (l.foldl f init) := by
  intro l
  induction l with
  | nil => intro init h _; exact h
  | cons x xs ih =>
    intro init h hstep
    rw [List.foldl_cons]
    exact ih (f init x) (hstep init x (List.mem_cons_self x xs) h)
      (fun acc y hy => hstep acc y (List.mem_cons_of_mem x hy))

lemma commonPrefixLen_le : ∀ (a b : List Char),
    commonPrefixLen a b ≤ a.length ∧ commonPrefixLen a b ≤ b.length
  | [], b => by simp [commonPrefixLen]
  | _ :: _, [] => by simp [commonPrefixLen]
  | a :: as, b :: bs => by
    by_cases hab : a = b
    · have := commonPrefixLen_le as bs
      simp only [commonPrefixLen, if_pos hab, List.length_cons]
      omega
    · simp [commonPrefixLen, hab]

lemma longestMatch_bounds (a b : List Char) :
    (longestMatch a b).1 + (longestMatch a b).2.2 ≤ a.length ∧
    (longestMatch a b).2.1 + (longestMatch a b).2.2 ≤ b.length := by
  unfold longestMatch
  apply foldl_preserves
    (fun best : ℕ × ℕ × ℕ => best.1 + best.2.2 ≤ a.length ∧ best.2.1 + best.2.2 ≤ b.length)
  · simp
  · intro acc i hi hacc
    apply foldl_preserves
      (fun best : ℕ × ℕ × ℕ => best.1 + best.2.2 ≤ a.length ∧ best.2.1 + best.2.2 ≤ b.length)
    · exact hacc
    · intro acc2 j hj hacc2
      have hi' : i < a.length := List.mem_range.mp hi
      have hj' : j < b.length := List.mem_range.mp hj
      dsimp only
      split
      · have hk := (commonPrefixLen_le (a.drop i) (b.drop j)).1
        have hk2 := (commonPrefixLen_le (a.drop i) (b.drop j)).2
        rw [List.length_drop] at hk
        rw [List.length_drop] at hk2
        constructor <;> simp <;> omega
      · exact hacc2

lemma matchingTotalAux_le : ∀ (fuel : ℕ) (a b : List Char),
    matchingTotalAux fuel a b ≤ a.length ∧ matchingTotalAux fuel a b ≤ b.length := by
  intro fuel
  induction fuel with
  | zero => intro a b; simp [matchingTotalAux]
  | succ n ih =>
    intro a b
    have hlm := longestMatch_bounds a b
    rw [matchingTotalAux]
    split
    · simp
    · rename_i hk
      have h1 := ih (a.take (longestMatch a b).1) (b.take (longestMatch a b).2.1)
      have h2 := ih (a.drop ((longestMatch a b).1 + (longestMatch a b).2.2))
        (b.drop ((longestMatch a b).2.1 + (longestMatch a b).2.2))
      rw [List.length_take, List.length_take] at h1
      rw [List.length_drop, List.length_drop] at h2
      constructor <;> omega

lemma matchingTotal_le (a b : List Char) :
    matchingTotal a b ≤ a.length ∧ matchingTotal a b ≤ b.length :=
  matchingTotalAux_le _ a b

lemma seqRatioScaled_bounds (a b : List Char) :
    0 ≤ seqRatioScaled a b ∧ seqRatioScaled a b ≤ 100 := by
  unfold seqRatioScaled
  split
  · norm_num
  · rename_i hne
    have hpos : 0 < a.length + b.length := Nat.pos_of_ne_zero hne
    have hposq : (0 : ℚ) < (a.length : ℚ) + (b.length : ℚ) := by
      have : (0 : ℚ) < ((a.length + b.length : ℕ) : ℚ) := by exact_mod_cast hpos
      push_cast at this
      linarith
    have hmt := matchingTotal_le a b
    constructor
    · apply div_nonneg
      · positivity
      · linarith
    · rw [div_le_iff hposq]
      have h1 : (matchingTotal a b : ℚ) ≤ (a.length : ℚ) := by exact_mod_cast hmt.1
      have h2 : (matchingTotal a b : ℚ) ≤ (b.length : ℚ) := by exact_mod_cast hmt.2
      linarith

lemma calculate_similarity_score_bounds (n1 n2 : Option String) (m : String) :
    0 ≤ calculate_similarity_score n1 n2 m ∧ calculate_similarity_score n1 n2 m ≤ 100 := by
  unfold calculate_similarity_score
  match n1, n2 with
  | none, _ => norm_num
  | some s1, none => norm_num
  | some s1, some s2 =>
    dsimp only
    split
    · norm_num
    · have hf := fuzzRatio_bounds (pyLower s1).toList (pyLower s2).toList
      have hs := seqRatioScaled_bounds (pyLower s1).toList (pyLower s2).toList
      have hfq0 : (0 : ℚ) ≤ ((fuzzRatio (pyLower s1).toList (pyLower s2).toList : ℤ) : ℚ) := by
        exact_mod_cast hf.1
      have hfq1 : ((fuzzRatio (pyLower s1).toList (pyLower s2).toList : ℤ) : ℚ) ≤ 100 := by
        exact_mod_cast hf.2
      split
      · exact ⟨hfq0, hfq1⟩
      · split
        · exact hs
        · split
          · constructor <;> [linarith; linarith]
          · norm_num

/-! ### Matcher (`find_best_matches` in `src/email_customer_matching.py`). -/

/-- A row of the (processed) email dataset: the pandas index and the
`extracted_business` / `email_domain` columns used by the matcher. -/
structure EmailRow where
  emailIndex : ℕ
  extractedBusiness : Option String
  emailDomain : Option String
deriving DecidableEq, Repr

/-- A row of the customer dataset: the pandas index and the `Customer` /
`Main Email` columns used by the matcher. -/
structure CustomerRow where
  customerIndex : ℕ
  customer : Option String
  mainEmail : Option String
deriving DecidableEq, Repr

/-- Python `str(x)` on a pandas cell: `NaN` prints as `"nan"`. -/
def pyStr (v : Option String) : String :=
  match v with
  | none => "nan"
  | some s => s

/-- The `customer_name_clean` column generated in `find_best_matches`:
`re.sub(r'\s*#\d+[A-Za-z]*$', '', str(x)).strip()` (note: no `isna` guard —
a null `Customer` cell becomes the string `"nan"`). -/
def customerNameClean (c : CustomerRow) : String :=
  String.mk (pyStrip (removeTagScan (pyStr c.customer).toList))

/-- The `normalized_name` column: `normalize_business_name(customer_name_clean)`. -/
def custNormName (c : CustomerRow) : String :=
  normalize_business_name (some (customerNameClean c))

/-- The `normalized_business` column: `normalize_business_name(extracted_business)`. -/
def emailNormBusiness (e : EmailRow) : String :=
  normalize_business_name e.extractedBusiness

/-- The characters after the last `'@'`. -/
def afterLastAt (cs : List Char) : List Char :=
  (cs.reverse.takeWhile (fun c => !(c = '@'))).reverse

/-- `mainEmail.split('@')[-1] if '@' in str(mainEmail) else ''`. -/
def pyEmailDomain (m : String) : String :=
  if '@' ∈ m.toList then String.mk (afterLastAt m.toList) else ""

/-- The `domain_score` of the matching loop: 100 when both the email's
`email_domain` and the customer's `Main Email` are present and the former
equals the domain part of the latter, else 0. -/
def domainScore (e : EmailRow) (c : CustomerRow) : ℚ :=
  match e.emailDomain, c.mainEmail with
  | some d, some m => if d = pyEmailDomain m then 100 else 0
  | _, _ => 0

/-- The `combined_score` of the matching loop:
`fuzzy_score * 0.4 + sequence_score * 0.4 + domain_score * 0.2`, where the
name scores are `calculate_similarity_score(normalized_business,
normalized_name, 'fuzzy'/'sequence')`. -/
def rowScore (e : EmailRow) (c : CustomerRow) : ℚ :=
  calculate_similarity_score (some (emailNormBusiness e)) (some (custNormName c)) "fuzzy"
      * (4 / 10) +
    calculate_similarity_score (some (emailNormBusiness e)) (some (custNormName c)) "sequence"
      * (4 / 10) +
    domainScore e c * (2 / 10)

/-- A row of the `matches` output of `find_best_matches`. -/
structure MatchResult where
  emailIndex : ℕ
  customerIndex : ℕ
  emailBusiness : Option String
  customerName : Option String
  customerClean : String
  similarityScore : ℚ
  emailDomain : Option String
  customerEmail : Option String
deriving DecidableEq, Repr

/-- The body of the inner customer loop: skip customers with an empty
normalized name; otherwise update `(best_match, best_score)` when
`combined_score > best_score and combined_score >= threshold`. -/
def bestStep (e : EmailRow) (t : ℚ) (acc : Option CustomerRow × ℚ) (c : CustomerRow) :
    Option CustomerRow × ℚ :=
  if custNormName c = "" then acc
  else if acc.2 < rowScore e c ∧ t ≤ rowScore e c then (some c, rowScore e c) else acc

/-- One email's pass over all customers: the appended row when a best match
was found, `none` otherwise (also when the email's normalized business name
is empty, which the outer loop skips). -/
def matchEmail (customers : List CustomerRow) (t : ℚ) (e : EmailRow) : Option MatchResult :=
  if emailNormBusiness e = "" then none
  else
    match customers.foldl (bestStep e t) (none, 0) with
    | (some c, s) =>
      some ⟨e.emailIndex, c.customerIndex, e.extractedBusiness, c.customer,
        customerNameClean c, s, e.emailDomain, c.mainEmail⟩
    | (none, _) => none

/-- `find_best_matches` (threshold defaulting to 70 at the call sites): one
output row per matched email, in email order. -/
def find_best_matches (emails : List EmailRow) (customers : List CustomerRow) (t : ℚ) :
    List MatchResult :=
  emails.filterMap (matchEmail customers t)

/-- C2: the combined similarity score of the matching loop equals
`0.4*fuzzy + 0.4*sequence + 0.2*domain`; the domain score is 100 exactly when
the email's sender domain equals the customer email's domain (both present)
and 0 otherwise; the combined score lies in [0, 100]; and a null or empty
name input gives name-similarity 0. -/
theorem combined_score_spec (e : EmailRow) (c : CustomerRow) :
    (rowScore e c =
      (4 / 10) * calculate_similarity_score (some (emailNormBusiness e))
          (some (custNormName c)) "fuzzy" +
        (4 / 10) * calculate_similarity_score (some (emailNormBusiness e))
          (some (custNormName c)) "sequence" +
        (2 / 10) * domainScore e c) ∧
    (domainScore e c = 0 ∨ domainScore e c = 100) ∧
    (domainScore e c = 100 ↔
      (∃ d m, e.emailDomain = some d ∧ c.mainEmail = some m ∧ d = pyEmailDomain m)) ∧
    (0 ≤ rowScore e c ∧ rowScore e c ≤ 100) ∧
    (∀ n1 n2 method, (n1 = none ∨ n1 = some "" ∨ n2 = none ∨ n2 = some "") →
      calculate_similarity_score n1 n2 method = 0) := by
  have hdom : domainScore e c = 0 ∨ domainScore e c = 100 := by
    unfold domainScore
    match e.emailDomain, c.mainEmail with
    | none, _ => left; rfl
    | some d, none => left; rfl
    | some d, some m =>
      dsimp only
      split
      · right; rfl
      · left; rfl
  refine ⟨by unfold rowScore; ring, hdom, ?_, ?_, ?_⟩
  · unfold domainScore
    match hd : e.emailDomain, hm : c.mainEmail with
    | none, _ =>
      simp
    | some d, none =>
      simp
    | some d, some m =>
      dsimp only
      split
      · rename_i heq
        constructor
        · intro _
          exact ⟨d, m, rfl, rfl, heq⟩
        · intro _
          rfl
      · rename_i hne
        constructor
        · intro h
          norm_num at h
        · rintro ⟨d', m', hd', hm', hdm⟩
          injection hd' with hd2
          injection hm' with hm2
          subst hd2
          subst hm2
          exact absurd hdm hne
  · have hf := calculate_similarity_score_bounds (some (emailNormBusiness e))
      (some (custNormName c)) "fuzzy"
    have hs := calculate_similarity_score_bounds (some (emailNormBusiness e))
      (some (custNormName c)) "sequence"
    have hd0 : 0 ≤ domainScore e c := by rcases hdom with h | h <;> rw [h] <;> norm_num
    have hd1 : domainScore e c ≤ 100 := by rcases hdom with h | h <;> rw [h] <;> norm_num
    unfold rowScore
    constructor <;> nlinarith [hf.1, hf.2, hs.1, hs.2]
  · intro n1 n2 method h
    rcases h with h | h | h | h
    · rw [h]; rfl
    · subst h
      unfold calculate_similarity_score
      match n2 with
      | none => rfl
      | some s2 => simp
    · subst h
      unfold calculate_similarity_score
      match n1 with
      | none => rfl
      | some s1 => rfl
    · subst h
      unfold calculate_similarity_score
      match n1 with
      | none => rfl
      | some s1 => simp

/-- C2 witness: the score bound at a concrete email/customer pair, and the
null-name rule at a concrete null input. -/
theorem combined_score_spec_witness :
    (0 ≤ rowScore ⟨0, some "AB OPTICAL", some "acme.com"⟩ ⟨1, some "AB OPT", some "x@acme.com"⟩ ∧
      rowScore ⟨0, some "AB OPTICAL", some "acme.com"⟩ ⟨1, some "AB OPT", some "x@acme.com"⟩
        ≤ 100) ∧
    calculate_similarity_score none (some "x") "fuzzy" = 0 :=
  ⟨(combined_score_spec ⟨0, some "AB OPTICAL", some "acme.com"⟩
      ⟨1, some "AB OPT", some "x@acme.com"⟩).2.2.2.1,
    (combined_score_spec ⟨0, some "AB OPTICAL", some "acme.com"⟩
      ⟨1, some "AB OPT", some "x@acme.com"⟩).2.2.2.2 none (some "x") "fuzzy" (Or.inl rfl)⟩

lemma calculate_similarity_score_some (s1 s2 m : String) :
    calculate_similarity_score (some s1) (some s2) m =
      (if s1 = "" ∨ s2 = "" then 0
      else if m = "fuzzy" then ((fuzzRatio (pyLower s1).toList (pyLower s2).toList : ℤ) : ℚ)
      else if m = "sequence" then seqRatioScaled (pyLower s1).toList (pyLower s2).toList
      else if m = "combined" then
        (((fuzzRatio (pyLower s1).toList (pyLower s2).toList : ℤ) : ℚ) +
          seqRatioScaled (pyLower s1).toList (pyLower s2).toList) / 2
      else 0) := rfl

/-- C9: for non-empty names and a method outside
`{'fuzzy', 'sequence', 'combined'}`, `calculate_similarity_score` silently
returns 0 instead of raising. -/
theorem unknown_method_returns_zero (s1 s2 m : String)
    (h1 : s1 ≠ "") (h2 : s2 ≠ "")
    (hm : m ∉ (["fuzzy", "sequence", "combined"] : List String)) :
    calculate_similarity_score (some s1) (some s2) m = 0 := by
  simp only [List.mem_cons, List.not_mem_nil, or_false, not_or] at hm
  obtain ⟨hmf, hms, hmc⟩ := hm
  rw [calculate_similarity_score_some, if_neg (by tauto), if_neg hmf, if_neg hms, if_neg hmc]

/-- C9 witness: a concrete unknown method yields similarity 0. -/
theorem unknown_method_returns_zero_witness :
    calculate_similarity_score (some "abc") (some "xyz") "cosine" = 0 :=
  unknown_method_returns_zero "abc" "xyz" "cosine" (by decide) (by decide) (by decide)

lemma bestStep_snd_le (e : EmailRow) (t : ℚ) (acc : Option CustomerRow × ℚ)
    (c : CustomerRow) : acc.2 ≤ (bestStep e t acc c).2 := by
  unfold bestStep
  split
  · exact le_refl _
  · split
    · rename_i hcond
      exact le_of_lt hcond.1
    · exact le_refl _

lemma foldl_bestStep_mono (e : EmailRow) (t : ℚ) :
    ∀ (l : List CustomerRow) (acc : Option CustomerRow × ℚ),
      acc.2 ≤ (l.foldl (bestStep e t) acc).2 := by
  intro l
  induction l with
  | nil => intro acc; exact le_refl _
  | cons c cl ih =>
    intro acc
    rw [List.foldl_cons]
    exact le_trans (bestStep_snd_le e t acc c) (ih _)

lemma foldl_bestStep_provenance (e : EmailRow) (t : ℚ) :
    ∀ (l : List CustomerRow) (acc : Option CustomerRow × ℚ),
      l.foldl (bestStep e t) acc = acc ∨
      ∃ c ∈ l, custNormName c ≠ "" ∧ t ≤ rowScore e c ∧ acc.2 < rowScore e c ∧
        l.foldl (bestStep e t) acc = (some c, rowScore e c) := by
  intro l
  induction l with
  | nil => intro acc; exact Or.inl rfl
  | cons c0 cl ih =>
    intro acc
    rw [List.foldl_cons]
    by_cases hok : custNormName c0 = ""
    · have hstep : bestStep e t acc c0 = acc := by
        unfold bestStep; rw [if_pos hok]
      rw [hstep]
      rcases ih acc with h | ⟨c, hc, h1, h2, h3, h4⟩
      · exact Or.inl h
      · exact Or.inr ⟨c, List.mem_cons_of_mem _ hc, h1, h2, h3, h4⟩
    · by_cases hcond : acc.2 < rowScore e c0 ∧ t ≤ rowScore e c0
      · have hstep : bestStep e t acc c0 = (some c0, rowScore e c0) := by
          unfold bestStep; rw [if_neg hok, if_pos hcond]
        rw [hstep]
        rcases ih (some c0, rowScore e c0) with h | ⟨c, hc, h1, h2, h3, h4⟩
        · exact Or.inr ⟨c0, List.mem_cons_self _ _, hok, hcond.2, hcond.1, h⟩
        · exact Or.inr ⟨c, List.mem_cons_of_mem _ hc, h1, h2,
            lt_trans hcond.1 h3, h4⟩
      · have hstep : bestStep e t acc c0 = acc := by
          unfold bestStep; rw [if_neg hok, if_neg hcond]
        rw [hstep]
        rcases ih acc with h | ⟨c, hc, h1, h2, h3, h4⟩
        · exact Or.inl h
        · exact Or.inr ⟨c, List.mem_cons_of_mem _ hc, h1, h2, h3, h4⟩

lemma foldl_bestStep_ub (e : EmailRow) (t : ℚ) :
    ∀ (l : List CustomerRow) (acc : Option CustomerRow × ℚ),
      ∀ c ∈ l, custNormName c ≠ "" → t ≤ rowScore e c →
        rowScore e c ≤ (l.foldl (bestStep e t) acc).2 ∨ rowScore e c ≤ acc.2 := by
  intro l
  induction l with
  | nil => intro acc c hc; exact absurd hc (List.not_mem_nil c)
  | cons c0 cl ih =>
    intro acc c hc hok hts
    rw [List.foldl_cons]
    rcases List.mem_cons.mp hc with rfl | hc'
    · by_cases hcond : acc.2 < rowScore e c ∧ t ≤ rowScore e c
      · have hstep : bestStep e t acc c = (some c, rowScore e c) := by
          unfold bestStep; rw [if_neg hok, if_pos hcond]
        left
        calc rowScore e c = (bestStep e t acc c).2 := by rw [hstep]
          _ ≤ _ := foldl_bestStep_mono e t cl _
      · right
        by_contra hgt
        push_neg at hgt hcond
        exact absurd hts (not_le.mpr (hcond hgt))
    · rcases ih (bestStep e t acc c0) c hc' hok hts with h | h
      · left; exact h
      · left; exact le_trans h (foldl_bestStep_mono e t cl _)

lemma foldl_bestStep_first (e : EmailRow) (t : ℚ) :
    ∀ (l : List CustomerRow) (acc : Option CustomerRow × ℚ),
      acc.2 < (l.foldl (bestStep e t) acc).2 →
      ∃ c, (l.filter (fun c => decide (custNormName c ≠ ""))).find?
          (fun c' => decide (rowScore e c' = (l.foldl (bestStep e t) acc).2)) = some c ∧
        (l.foldl (bestStep e t) acc).1 = some c := by
  intro l
  induction l with
  | nil => intro acc h; exact absurd h (lt_irrefl _)
  | cons c0 cl ih =>
    intro acc hlt
    rw [List.foldl_cons] at hlt ⊢
    by_cases hok : custNormName c0 = ""
    · have hstep : bestStep e t acc c0 = acc := by
        unfold bestStep; rw [if_pos hok]
      rw [hstep] at hlt ⊢
      have hfil : (c0 :: cl).filter (fun c => decide (custNormName c ≠ "")) =
          cl.filter (fun c => decide (custNormName c ≠ "")) := by
        rw [List.filter_cons]
        simp [hok]
      rw [hfil]
      exact ih acc hlt
    · have hfil : (c0 :: cl).filter (fun c => decide (custNormName c ≠ "")) =
          c0 :: cl.filter (fun c => decide (custNormName c ≠ "")) := by
        rw [List.filter_cons]
        simp [hok]
      rw [hfil]
      by_cases hcond : acc.2 < rowScore e c0 ∧ t ≤ rowScore e c0
      · have hstep : bestStep e t acc c0 = (some c0, rowScore e c0) := by
          unfold bestStep; rw [if_neg hok, if_pos hcond]
        rw [hstep] at hlt ⊢
        by_cases hlt2 : rowScore e c0 < (cl.foldl (bestStep e t) (some c0, rowScore e c0)).2
        · obtain ⟨c, hfind, hfst⟩ := ih (some c0, rowScore e c0) hlt2
          refine ⟨c, ?_, hfst⟩
          have hne : ¬(rowScore e c0 =
              (cl.foldl (bestStep e t) (some c0, rowScore e c0)).2) := ne_of_lt hlt2
          rw [List.find?_cons_of_neg _ (by simp [hne])]
          exact hfind
        · have hres : cl.foldl (bestStep e t) (some c0, rowScore e c0) =
              (some c0, rowScore e c0) := by
            rcases foldl_bestStep_provenance e t cl (some c0, rowScore e c0) with
              h | ⟨c, _, _, _, h3, h4⟩
            · exact h
            · exfalso
              apply hlt2
              rw [h4]
              exact h3
          rw [hres]
          exact ⟨c0, by rw [List.find?_cons_of_pos _ (by simp)], rfl⟩
      · have hstep : bestStep e t acc c0 = acc := by
          unfold bestStep; rw [if_neg hok, if_neg hcond]
        rw [hstep] at hlt ⊢
        obtain ⟨c, hfind, hfst⟩ := ih acc hlt
        refine ⟨c, ?_, hfst⟩
        have hne : ¬(rowScore e c0 = (cl.foldl (bestStep e t) acc).2) := by
          intro heq
          rcases foldl_bestStep_provenance e t cl acc with h | ⟨c', _, _, h2, _, h4⟩
          · rw [h] at hlt
            exact absurd hlt (lt_irrefl _)
          · push_neg at hcond
            have hts : t ≤ (cl.foldl (bestStep e t) acc).2 := by
              rw [h4]
              exact h2
            have h5 : t ≤ rowScore e c0 := by rw [heq]; exact hts
            have h6 : acc.2 < rowScore e c0 := by rw [heq]; exact hlt
            exact absurd h5 (not_le.mpr (hcond h6))
        rw [List.find?_cons_of_neg _ (by simp [hne])]
        exact hfind

lemma matchEmail_emailIndex (customers : List CustomerRow) (t : ℚ) (e : EmailRow)
    (r : MatchResult) (h : matchEmail customers t e = some r) :
    r.emailIndex = e.emailIndex := by
  unfold matchEmail at h
  split at h
  · exact absurd h (by simp)
  · split at h
    · injection h with h2
      rw [← h2]
    · exact absurd h (by simp)

lemma find_best_matches_count (customers : List CustomerRow) (t : ℚ) :
    ∀ (emails : List EmailRow) (idx : ℕ),
      ((find_best_matches emails customers t).filter
          (fun r => decide (r.emailIndex = idx))).length ≤
        (emails.filter (fun e' => decide (e'.emailIndex = idx))).length := by
  intro emails
  induction emails with
  | nil => intro idx; simp [find_best_matches]
  | cons e0 es ih =>
    intro idx
    unfold find_best_matches at ih ⊢
    cases hm : matchEmail customers t e0 with
    | none =>
      have hgoal : List.filterMap (matchEmail customers t) (e0 :: es) =
          List.filterMap (matchEmail customers t) es := by
        simp [List.filterMap_cons, hm]
      rw [hgoal, List.filter_cons]
      split
      · simp only [List.length_cons]
        exact le_trans (ih idx) (Nat.le_succ _)
      · exact ih idx
    | some r =>
      have hgoal : List.filterMap (matchEmail customers t) (e0 :: es) =
          r :: List.filterMap (matchEmail customers t) es := by
        simp [List.filterMap_cons, hm]
      rw [hgoal]
      have hidx := matchEmail_emailIndex customers t e0 r hm
      by_cases hcase : e0.emailIndex = idx
      · have h1 : decide (r.emailIndex = idx) = true := by simp [hidx, hcase]
        have h2 : decide (e0.emailIndex = idx) = true := by simp [hcase]
        simp only [List.filter_cons, h1, h2, if_true, List.length_cons]
        exact Nat.succ_le_succ (ih idx)
      · have h1 : decide (r.emailIndex = idx) = false := by simp [hidx, hcase]
        have h2 : decide (e0.emailIndex = idx) = false := by simp [hcase]
        simp only [List.filter_cons, h1, h2, Bool.false_eq_true, if_false]
        exact ih idx

/-- C1: for an email with a non-empty normalized business name, the matcher
emits at most one row per email record; an emitted row's score is at least the
threshold and equals the maximum combined score over all customer candidates
(the customers with a non-empty normalized name), the winning candidate being
the first one attaining that maximum; and when every candidate scores below
the threshold, the email yields no row (and no error — `matchEmail` is
total). -/
theorem matcher_best_match_spec (customers : List CustomerRow) (t : ℚ) (e : EmailRow)
    (hne : emailNormBusiness e ≠ "") :
    (∀ (emails : List EmailRow) (idx : ℕ),
      ((find_best_matches emails customers t).filter
          (fun r => decide (r.emailIndex = idx))).length ≤
        (emails.filter (fun e' => decide (e'.emailIndex = idx))).length) ∧
    (∀ r, matchEmail customers t e = some r →
      t ≤ r.similarityScore ∧
      r.similarityScore ∈
        (customers.filter (fun c => decide (custNormName c ≠ ""))).map (rowScore e) ∧
      (∀ s ∈ (customers.filter (fun c => decide (custNormName c ≠ ""))).map (rowScore e),
        s ≤ r.similarityScore) ∧
      (∃ c, (customers.filter (fun c => decide (custNormName c ≠ ""))).find?
            (fun c' => decide (rowScore e c' = r.similarityScore)) = some c ∧
        r = ⟨e.emailIndex, c.customerIndex, e.extractedBusiness, c.customer,
          customerNameClean c, rowScore e c, e.emailDomain, c.mainEmail⟩)) ∧
    ((∀ c ∈ customers, custNormName c ≠ "" → rowScore e c < t) →
      matchEmail customers t e = none) := by
  refine ⟨find_best_matches_count customers t, ?_, ?_⟩
  · intro r hr
    unfold matchEmail at hr
    rw [if_neg hne] at hr
    rcases hfold : customers.foldl (bestStep e t) (none, 0) with ⟨mo, s⟩
    rw [hfold] at hr
    cases mo with
    | none => exact absurd hr (by simp)
    | some c =>
      injection hr with hr
      rcases foldl_bestStep_provenance e t customers (none, 0) with h | ⟨c', hc', h1, h2, h3, h4⟩
      · rw [hfold] at h
        exact absurd (congrArg Prod.fst h) (by simp)
      · rw [hfold] at h4
        injection h4 with ha hb
        injection ha with hcc
        subst hcc
        have hsc : s = rowScore e c := hb
        have hscore : r.similarityScore = s := by rw [← hr]
        have hpos : (0 : ℚ) < s := by
          rw [hsc]
          exact h3
        refine ⟨?_, ?_, ?_, ?_⟩
        · rw [hscore, hsc]
          exact h2
        · rw [hscore, hsc]
          exact List.mem_map_of_mem (rowScore e)
            (List.mem_filter.mpr ⟨hc', by simp [h1]⟩)
        · intro s' hs'
          obtain ⟨c'', hc'', rfl⟩ := List.mem_map.mp hs'
          obtain ⟨hcmem, hcok⟩ := List.mem_filter.mp hc''
          have hok'' : custNormName c'' ≠ "" := by
            simpa using hcok
          rw [hscore]
          by_cases hts : t ≤ rowScore e c''
          · rcases foldl_bestStep_ub e t customers (none, 0) c'' hcmem hok'' hts with h | h
            · rw [hfold] at h
              exact h
            · exact le_trans h (le_of_lt hpos)
          · push_neg at hts
            exact le_of_lt (lt_of_lt_of_le hts (by rw [hsc]; exact h2))
        · have hlt0 : ((none : Option CustomerRow), (0 : ℚ)).2 <
              (customers.foldl (bestStep e t) (none, 0)).2 := by
            rw [hfold]
            exact hpos
          obtain ⟨c₀, hfind, hfst⟩ := foldl_bestStep_first e t customers (none, 0) hlt0
          rw [hfold] at hfind hfst
          injection hfst with hfst
          refine ⟨c, ?_, ?_⟩
          · rw [hscore]
            rw [← hfst] at hfind
            exact hfind
          · rw [← hr, hsc]
  · intro hall
    unfold matchEmail
    rw [if_neg hne]
    have hres : customers.foldl (bestStep e t) (none, 0) = (none, 0) := by
      rcases foldl_bestStep_provenance e t customers (none, 0) with h | ⟨c, hc, h1, h2, _, _⟩
      · exact h
      · exact absurd h2 (not_le.mpr (hall c hc h1))
    rw [hres]

lemma pythonRound_eq_of_eq_intCast (n : ℤ) (q : ℚ) (h : q = (n : ℚ)) :
    pythonRound q = n := by
  subst h
  unfold pythonRound
  rw [Int.floor_intCast, sub_self, if_pos (by norm_num)]

set_option maxHeartbeats 2000000 in
lemma witness_fuzz : fuzzRatio ['a', 'b'] ['a', 'b'] = 100 := by
  have hl : lcsLen ['a', 'b'] ['a', 'b'] = 2 := by decide
  unfold fuzzRatio
  rw [if_neg (by norm_num), hl]
  apply pythonRound_eq_of_eq_intCast
  norm_num

set_option maxHeartbeats 2000000 in
lemma witness_seq : seqRatioScaled ['a', 'b'] ['a', 'b'] = 100 := by
  have hm : matchingTotal ['a', 'b'] ['a', 'b'] = 2 := by decide
  unfold seqRatioScaled
  rw [if_neg (by norm_num), hm]
  norm_num

set_option maxHeartbeats 2000000 in
lemma witness_row :
    rowScore ⟨0, some "AB", some "x.com"⟩ ⟨1, some "AB", some "u@x.com"⟩ = 100 := by
  have h1 : emailNormBusiness ⟨0, some "AB", some "x.com"⟩ = "ab" := by decide
  have h2 : custNormName ⟨1, some "AB", some "u@x.com"⟩ = "ab" := by decide
  have hpl : (pyLower "ab").toList = ['a', 'b'] := by decide
  have hcf : calculate_similarity_score (some "ab") (some "ab") "fuzzy" = 100 := by
    rw [calculate_similarity_score_some, if_neg (by simp), if_pos rfl, hpl, witness_fuzz]
    norm_num
  have hcs : calculate_similarity_score (some "ab") (some "ab") "sequence" = 100 := by
    rw [calculate_similarity_score_some, if_neg (by simp), if_neg (by decide),
      if_pos rfl, hpl, witness_seq]
  have hd : domainScore ⟨0, some "AB", some "x.com"⟩ ⟨1, some "AB", some "u@x.com"⟩
      = 100 := rfl
  unfold rowScore
  rw [h1, h2, hcf, hcs, hd]
  norm_num

set_option maxHeartbeats 2000000 in
lemma witness_matchEmail :
    matchEmail [⟨1, some "AB", some "u@x.com"⟩] 70 ⟨0, some "AB", some "x.com"⟩ =
      some ⟨0, 1, some "AB", some "AB", "AB", 100, some "x.com", some "u@x.com"⟩ := by
  unfold matchEmail
  rw [if_neg (by decide), List.foldl_cons, List.foldl_nil]
  unfold bestStep
  rw [if_neg (by decide), witness_row,
    if_pos (⟨by norm_num, by norm_num⟩ : ((none : Option CustomerRow), (0 : ℚ)).2 < 100
      ∧ (70 : ℚ) ≤ 100)]
  have hc : customerNameClean ⟨1, some "AB", some "u@x.com"⟩ = "AB" := by decide
  dsimp only
  rw [hc]

set_option maxHeartbeats 2000000 in
/-- C1 witness: a concrete email/customer pair at the default threshold 70:
the matcher emits exactly one row, whose score 100 is at least 70. -/
theorem matcher_best_match_spec_witness :
    emailNormBusiness ⟨0, some "AB", some "x.com"⟩ ≠ "" ∧
    matchEmail [⟨1, some "AB", some "u@x.com"⟩] 70 ⟨0, some "AB", some "x.com"⟩ =
      some ⟨0, 1, some "AB", some "AB", "AB", 100, some "x.com", some "u@x.com"⟩ ∧
    (70 : ℚ) ≤
      (MatchResult.mk 0 1 (some "AB") (some "AB") "AB" 100 (some "x.com")
        (some "u@x.com")).similarityScore := by
  refine ⟨by decide, witness_matchEmail, ?_⟩
  exact ((matcher_best_match_spec [⟨1, some "AB", some "u@x.com"⟩] 70
      ⟨0, some "AB", some "x.com"⟩ (by decide)).2.1
    ⟨0, 1, some "AB", some "AB", "AB", 100, some "x.com", some "u@x.com"⟩
    witness_matchEmail).1

end Spec2Proof
